import Mathlib

/-!
Shallow embedding of the speedreader program (src/main.rs).

The program paces display of a tokenized text one word at a time.  The parts
embedded here are the ones the claims are about: the tokenizer
(`tokenize_text`), the countdown stage (`display_countdown`), the pacing loop
(`speed_read` and its per-token hold loop), the pause sub-loop
(`handle_paused_input`), the rate-update arithmetic (u64 arithmetic with
wraparound, as in a Rust release build), and the command-line/config rate
selection (`from_args_wpm`).

Modelling conventions:
* Rust `u64` values are `Nat` together with wraparound taken explicitly
  modulo `2 ^ 64` at each arithmetic operation (`u64_add`, `u64_sub`).
* Strings are lists of `Char`; `char::is_whitespace` / `char::is_alphanumeric`
  are modelled with `Char.isWhitespace` / `Char.isAlphanum`.
* The event stream is a script: a list of poll outcomes, one consumed per
  `event::poll` call.  `none` is a poll timeout (50 ms in the pacing loop,
  100 ms in the pause sub-loop), `some ev` is an immediately available event.
  An exhausted script behaves as timeouts forever in the pacing loop; in the
  pause sub-loop, which only exits on a key, an exhausted script is the
  distinguished outcome `starved` (the real program would block on the user).
* Time is idealized: a poll that times out advances the wall clock by exactly
  its timeout, an available event and all rendering take no time, and each
  countdown iteration observes exactly one more elapsed second than the
  previous one.
-/

namespace SpeedReader

/-- Source: `const MAX_WPM: u64 = 1000;` -/
def MAX_WPM : Nat := 1000

/-- Source: `const MIN_WPM: u64 = 150;` -/
def MIN_WPM : Nat := 150

/-- Number of values of a Rust `u64`. -/
def U64_SIZE : Nat := 2 ^ 64

/-- Rust `u64` addition as in a release build: wraparound modulo `2 ^ 64`. -/
def u64_add (a b : Nat) : Nat := (a + b) % U64_SIZE

/-- Rust `u64` subtraction as in a release build: wraparound modulo `2 ^ 64`.
For `a b < U64_SIZE` this is `a - b` when `b ≤ a` and `a + 2^64 - b` when
`b > a` (the underflow case). -/
def u64_sub (a b : Nat) : Nat := (a + (U64_SIZE - b % U64_SIZE)) % U64_SIZE

/-- Source: `fn default_wpm() -> u64 { 258 }` -/
def default_wpm : Nat := 258

/-- Source: `fn default_wpm_step() -> u64 { 5 }` -/
def default_wpm_step : Nat := 5

/-- The four single-character key bindings (struct `KeyBindings`). -/
structure KeyBindings where
  quit : Char
  pause : Char
  increase_wpm : Char
  decrease_wpm : Char
deriving DecidableEq

/-- Source: `impl Default for KeyBindings` (keys `q`, space, `+`, `-`). -/
def default_keys : KeyBindings := ⟨'q', ' ', '+', '-'⟩

/-- The configuration fields the pacing loop reads (struct `Config`; the
`model` field only feeds the out-of-scope evaluation collaborator and is
omitted). -/
structure Config where
  wpm : Nat
  wpm_step : Nat
  keys : KeyBindings
deriving DecidableEq

/-- Source: `struct ReadResult { success: bool, wpm: Option<u64> }`. -/
structure ReadResult where
  success : Bool
  wpm : Option Nat
deriving DecidableEq

/-- Rate initialization in `Config::from_args`: the `--wpm` argument, when
present, is clamped by `cmp::min(MAX_WPM, cmp::max(wpm, MIN_WPM))`; otherwise
the value loaded from the config file is kept as is.  `loaded` stands for the
`wpm` field of the loaded (or default) config. -/
def from_args_wpm (loaded : Nat) (arg_wpm : Option Nat) : Nat :=
  match arg_wpm with
  | some wpm => min MAX_WPM (max wpm MIN_WPM)
  | none => loaded

/-- The increase-rate update in `handle_paused_input`:
`*current_wpm = cmp::min(*current_wpm + config.wpm_step, MAX_WPM);`. -/
def increase_wpm_op (wpm step : Nat) : Nat := min (u64_add wpm step) MAX_WPM

/-- The decrease-rate update in `handle_paused_input`:
`*current_wpm = cmp::max(*current_wpm - config.wpm_step, MIN_WPM);`.
The subtraction is performed in `u64` before the `max`. -/
def decrease_wpm_op (wpm step : Nat) : Nat := max (u64_sub wpm step) MIN_WPM

/-- The per-token hold duration computed in `speed_read`:
`time::Duration::from_millis(60_000 / current_wpm)` (integer division),
in milliseconds.  (At `wpm = 0` — reachable only through a config file rate
of 0 — the Rust division panics right after the first frame renders, while
`Nat` division yields 0; no theorem relies on the value at that point.) -/
def dur_wpm (wpm : Nat) : Nat := 60000 / wpm

/-- Accumulator pass of `str::split_whitespace`: `acc` holds the chars of the
current in-progress chunk, in reverse. -/
def split_whitespace_go : List Char → List Char → List (List Char)
  | [], acc => if acc = [] then [] else [acc.reverse]
  | c :: cs, acc =>
    if c.isWhitespace then
      if acc = [] then split_whitespace_go cs []
      else acc.reverse :: split_whitespace_go cs []
    else split_whitespace_go cs (c :: acc)

/-- Model of Rust `str::split_whitespace`: the maximal whitespace-free chunks
of the input, in order. -/
def split_whitespace (text : List Char) : List (List Char) :=
  split_whitespace_go text []

/-- Source `fn tokenize_text`: split on whitespace, then keep only the
alphanumeric characters of each chunk
(`word.chars().filter(|c| c.is_alphanumeric()).collect()`). -/
def tokenize_text (text : List Char) : List (List Char) :=
  (split_whitespace text).map (fun word => word.filter (fun c => c.isAlphanum))

/-- One rendered frame of the countdown stage: the remaining whole seconds that
were printed, and whether the "Starting in..." label was printed on this
frame (it is printed exactly when `remaining > 0`). -/
structure CountdownFrame where
  remaining : Nat
  label_shown : Bool
deriving DecidableEq

/-- The loop body of `fn display_countdown` under the idealized clock: the
iteration that starts `elapsed` seconds after stage entry computes
`remaining = seconds.saturating_sub(elapsed)`, renders it (with the label when
`remaining > 0`), sleeps one second, and exits afterwards iff
`elapsed >= seconds`. -/
def display_countdown_go (seconds elapsed : Nat) : List CountdownFrame :=
  if h : seconds ≤ elapsed then [⟨seconds - elapsed, decide (0 < seconds - elapsed)⟩]
  else ⟨seconds - elapsed, decide (0 < seconds - elapsed)⟩ ::
    display_countdown_go seconds (elapsed + 1)
termination_by seconds - elapsed
decreasing_by omega

/-- Source `fn display_countdown`: the sequence of frames rendered for a
countdown of `seconds` whole seconds. -/
def display_countdown (seconds : Nat) : List CountdownFrame :=
  display_countdown_go seconds 0

/-- An input event as seen by the loops: a character key press, or any other
event (non-character key, resize, ...), which both loops ignore. -/
inductive KeyEv where
  | key (c : Char)
  | other
deriving DecidableEq

/-- The event stream: one entry per `event::poll` call.  `none` is a timeout
(the poll waited its full timeout and no event arrived), `some ev` is an
event available immediately. -/
abbrev Script := List (Option KeyEv)

/-- Outcome of the pause sub-loop `handle_paused_input`.  `out r rest` models
`return Ok(Some(r))` (only reachable through the quit arm), `resumed` models
falling out of the `while *paused` loop after the pause key cleared the flag
(carrying the possibly-updated rate, the wall-clock milliseconds spent
paused, and the unconsumed script), `starved` marks an exhausted script while
still paused (the real program would keep blocking on the user). -/
inductive PauseOut where
  | out (r : ReadResult) (rest : Script)
  | resumed (wpm : Nat) (time_spent : Nat) (rest : Script)
  | starved
deriving DecidableEq

/-- Source `fn handle_paused_input`: poll at 100 ms; on a character key, the
match arms test in order `increase_wpm` (clamped add), `decrease_wpm` (u64
subtraction then clamped from below), `quit` (return
`Some(ReadResult { success: false, wpm: None })`), `pause` (clear the paused
flag, i.e. exit the loop), anything else is ignored.  `time_spent`
accumulates the idealized wall-clock time of the polls. -/
def handle_paused_input (cfg : Config) (current_wpm time_spent : Nat) :
    Script → PauseOut
  | [] => .starved
  | ev :: rest =>
    match ev with
    | none => handle_paused_input cfg current_wpm (time_spent + 100) rest
    | some .other => handle_paused_input cfg current_wpm time_spent rest
    | some (.key c) =>
      if c = cfg.keys.increase_wpm then
        handle_paused_input cfg (increase_wpm_op current_wpm cfg.wpm_step)
          time_spent rest
      else if c = cfg.keys.decrease_wpm then
        handle_paused_input cfg (decrease_wpm_op current_wpm cfg.wpm_step)
          time_spent rest
      else if c = cfg.keys.quit then
        .out ⟨false, none⟩ rest
      else if c = cfg.keys.pause then
        .resumed current_wpm time_spent rest
      else handle_paused_input cfg current_wpm time_spent rest

/-- Outcome of the per-token hold loop of `speed_read` (the inner
`while start.elapsed() < dur_wpm` loop).  `finished r` models an early
`return Ok(r)` (quit, directly or via the pause sub-loop), `restart rest`
models reaching the recursive `return speed_read(buf, config, ...)` call
site, `starved` propagates pause starvation, and `done wpm rest` is the
normal exit of the wait with the current rate and the unconsumed script. -/
inductive HoldOut where
  | finished (r : ReadResult)
  | restart (rest : Script)
  | starved
  | done (wpm : Nat) (rest : Script)
deriving DecidableEq

/-- The inner wait loop of `fn speed_read` for one token: while `elapsed`
milliseconds are less than the hold duration `dur`, poll at 50 ms; a
character key is matched against `quit` (return Cancelled) then `pause`
(toggle the flag, which immediately hands control to `handle_paused_input`);
everything else is ignored.  On `Some(result)` from the pause sub-loop the
source tests `result.success && result.wpm.is_some()` and either recurses
into `speed_read` (modelled by `.restart`) or returns the result.  On resume
the wait continues with the updated rate; the wall-clock time spent paused
still counts against the same hold (the source keeps a single
`time::Instant` for the token).  On an exhausted script every remaining poll
times out, so the wait just runs to its deadline with nothing to observe;
this is folded into returning `.done current_wpm []` at once. -/
def hold_loop (cfg : Config) (dur current_wpm elapsed : Nat) (script : Script) :
    HoldOut :=
  if hlt : elapsed < dur then
    match script with
    | [] => .done current_wpm []
    | ev :: rest =>
      match ev with
      | none => hold_loop cfg dur current_wpm (elapsed + 50) rest
      | some .other => hold_loop cfg dur current_wpm elapsed rest
      | some (.key c) =>
        if c = cfg.keys.quit then .finished ⟨false, none⟩
        else if c = cfg.keys.pause then
          match hp : handle_paused_input cfg current_wpm 0 rest with
          | .out r prest =>
            if r.success && r.wpm.isSome then .restart prest else .finished r
          | .resumed wpm' t prest => hold_loop cfg dur wpm' (elapsed + t) prest
          | .starved => .starved
        else hold_loop cfg dur current_wpm elapsed rest
  else .done current_wpm script
termination_by script.length + (dur - elapsed)
decreasing_by
  all_goals try simp only [List.length_cons]
  all_goals try omega
  have hlen : ∀ (s : Script) (w t w' t' : Nat) (r : Script),
      handle_paused_input cfg w t s = .resumed w' t' r → r.length < s.length := by
    intro s
    induction s with
    | nil =>
      intro w t w' t' r h
      rw [handle_paused_input.eq_def] at h
      simp at h
    | cons e es ih =>
      intro w t w' t' r h
      rw [handle_paused_input.eq_def] at h
      cases e with
      | none => exact Nat.lt_succ_of_lt (ih _ _ _ _ _ h)
      | some kev =>
        cases kev with
        | other => exact Nat.lt_succ_of_lt (ih _ _ _ _ _ h)
        | key c =>
          simp only at h
          split at h
          · exact Nat.lt_succ_of_lt (ih _ _ _ _ _ h)
          · split at h
            · exact Nat.lt_succ_of_lt (ih _ _ _ _ _ h)
            · split at h
              · simp at h
              · split at h
                · simp only [PauseOut.resumed.injEq] at h
                  obtain ⟨h1, h2, h3⟩ := h
                  subst h3
                  simp only [List.length_cons]
                  omega
                · exact Nat.lt_succ_of_lt (ih _ _ _ _ _ h)
  have := hlen _ _ _ _ _ _ hp
  omega

/-- One frame rendered by `display_word_ui` for a token, together with the
hold duration computed right after it from the same `current_wpm`
(`60_000 / current_wpm` ms). -/
structure WordFrame where
  index : Nat
  word : List Char
  wpm : Nat
  dur : Nat
deriving DecidableEq

/-- Outcome of the token loop of `speed_read`, carrying the word frames
rendered (in order).  `restart_call rest frames` models reaching the
recursive `return speed_read(buf, config, ...)` with `rest` of the script
unconsumed. -/
inductive RunOut where
  | result (r : ReadResult) (frames : List WordFrame)
  | restart_call (rest : Script) (frames : List WordFrame)
  | starved (frames : List WordFrame)
deriving DecidableEq

/-- The frames rendered by a run, whatever its outcome. -/
def RunOut.frames : RunOut → List WordFrame
  | .result _ f => f
  | .restart_call _ f => f
  | .starved f => f

/-- The `for (i, word) in words.iter().enumerate()` loop of `fn speed_read`:
render the frame for the current token, compute its hold duration from the
current rate, run the hold loop, and on normal completion of the whole list
return `ReadResult { success: true, wpm: Some(current_wpm) }`. -/
def speed_read_tokens (cfg : Config) (words : List (List Char)) (i current_wpm : Nat)
    (script : Script) : RunOut :=
  match words with
  | [] => .result ⟨true, some current_wpm⟩ []
  | w :: ws =>
    let frame : WordFrame := ⟨i, w, current_wpm, dur_wpm current_wpm⟩
    match hold_loop cfg (dur_wpm current_wpm) current_wpm 0 script with
    | .finished r => .result r [frame]
    | .restart rest => .restart_call rest [frame]
    | .starved => .starved [frame]
    | .done wpm' rest =>
      match speed_read_tokens cfg ws (i + 1) wpm' rest with
      | .result r frames => .result r (frame :: frames)
      | .restart_call rest' frames => .restart_call rest' (frame :: frames)
      | .starved frames => .starved (frame :: frames)

/-- The driver for the recursive restart of `fn speed_read`: a
`.restart_call` re-runs the token loop from word 0 with the rate re-read
from `config.wpm` (the source recursion passes the same `config` and
re-initializes `current_wpm = config.wpm`).  The recursion in the source
consumes input; the `if` guard makes this well-founded and is never reached:
`.restart_call` is proved unreachable below
(`speed_read_tokens_no_restart`), because `handle_paused_input` only returns
a result on quit, with `success = false` and `wpm = None`. -/
def speed_read_run (cfg : Config) (words : List (List Char)) (script : Script) :
    RunOut :=
  match speed_read_tokens cfg words 0 cfg.wpm script with
  | .restart_call rest frames =>
    if hlt : rest.length < script.length then
      match speed_read_run cfg words rest with
      | .result r frames2 => .result r (frames ++ frames2)
      | .restart_call rest2 frames2 => .restart_call rest2 (frames ++ frames2)
      | .starved frames2 => .starved (frames ++ frames2)
    else .starved frames
  | .result r frames => .result r frames
  | .starved frames => .starved frames
termination_by script.length

/-- Source `fn speed_read`: tokenize the buffer and run the pacing loop,
starting at the configured rate.  (The countdown stage the source runs first
is modelled separately by `display_countdown` and renders no word frame.) -/
def speed_read (cfg : Config) (buf : List Char) (script : Script) : RunOut :=
  speed_read_run cfg (tokenize_text buf) script

/-! ### Helper lemmas -/

theorem u64_size_eq : U64_SIZE = 18446744073709551616 := by
  norm_num [U64_SIZE]

/-- The only `Some(result)` the pause sub-loop ever returns is the quit arm's
`ReadResult { success: false, wpm: None }`. -/
theorem handle_paused_input_out_shape (cfg : Config) :
    ∀ (s : Script) (w t : Nat) (r : ReadResult) (rest : Script),
      handle_paused_input cfg w t s = .out r rest → r = ⟨false, none⟩ := by
  intro s
  induction s with
  | nil =>
    intro w t r rest h
    rw [handle_paused_input.eq_def] at h
    simp at h
  | cons e es ih =>
    intro w t r rest h
    rw [handle_paused_input.eq_def] at h
    cases e with
    | none => exact ih _ _ _ _ h
    | some kev =>
      cases kev with
      | other => exact ih _ _ _ _ h
      | key c =>
        simp only at h
        split at h
        · exact ih _ _ _ _ h
        · split at h
          · exact ih _ _ _ _ h
          · split at h
            · simp only [PauseOut.out.injEq] at h
              exact h.1.symm
            · split at h
              · simp at h
              · exact ih _ _ _ _ h

/-- The script left over by a pause sub-loop that returned a result is a
suffix of the script it was given. -/
theorem handle_paused_input_out_rest (cfg : Config) :
    ∀ (s : Script) (w t : Nat) (r : ReadResult) (rest : Script),
      handle_paused_input cfg w t s = .out r rest → rest <:+ s := by
  intro s
  induction s with
  | nil =>
    intro w t r rest h
    rw [handle_paused_input.eq_def] at h
    simp at h
  | cons e es ih =>
    intro w t r rest h
    rw [handle_paused_input.eq_def] at h
    cases e with
    | none => exact (ih _ _ _ _ h).trans (List.suffix_cons _ _)
    | some kev =>
      cases kev with
      | other => exact (ih _ _ _ _ h).trans (List.suffix_cons _ _)
      | key c =>
        simp only at h
        split at h
        · exact (ih _ _ _ _ h).trans (List.suffix_cons _ _)
        · split at h
          · exact (ih _ _ _ _ h).trans (List.suffix_cons _ _)
          · split at h
            · simp only [PauseOut.out.injEq] at h
              rw [← h.2]
              exact List.suffix_cons _ _
            · split at h
              · simp at h
              · exact (ih _ _ _ _ h).trans (List.suffix_cons _ _)

/-- The script left over by a pause sub-loop that resumed is a suffix of the
script it was given. -/
theorem handle_paused_input_resumed_rest (cfg : Config) :
    ∀ (s : Script) (w t w' t' : Nat) (rest : Script),
      handle_paused_input cfg w t s = .resumed w' t' rest → rest <:+ s := by
  intro s
  induction s with
  | nil =>
    intro w t w' t' rest h
    rw [handle_paused_input.eq_def] at h
    simp at h
  | cons e es ih =>
    intro w t w' t' rest h
    rw [handle_paused_input.eq_def] at h
    cases e with
    | none => exact (ih _ _ _ _ _ h).trans (List.suffix_cons _ _)
    | some kev =>
      cases kev with
      | other => exact (ih _ _ _ _ _ h).trans (List.suffix_cons _ _)
      | key c =>
        simp only at h
        split at h
        · exact (ih _ _ _ _ _ h).trans (List.suffix_cons _ _)
        · split at h
          · exact (ih _ _ _ _ _ h).trans (List.suffix_cons _ _)
          · split at h
            · simp at h
            · split at h
              · simp only [PauseOut.resumed.injEq] at h
                rw [← h.2.2]
                exact List.suffix_cons _ _
              · exact (ih _ _ _ _ _ h).trans (List.suffix_cons _ _)

/-- If the script holds no press of the quit key, the pause sub-loop cannot
return a result (its only early return is the quit arm). -/
theorem handle_paused_input_no_out (cfg : Config) :
    ∀ (s : Script) (w t : Nat) (r : ReadResult) (rest : Script),
      some (KeyEv.key cfg.keys.quit) ∉ s →
      handle_paused_input cfg w t s ≠ .out r rest := by
  intro s
  induction s with
  | nil =>
    intro w t r rest _ h
    rw [handle_paused_input.eq_def] at h
    simp at h
  | cons e es ih =>
    intro w t r rest hq h
    have hq_tail : some (KeyEv.key cfg.keys.quit) ∉ es := fun hm => hq (List.mem_cons_of_mem _ hm)
    rw [handle_paused_input.eq_def] at h
    cases e with
    | none => exact ih _ _ _ _ hq_tail h
    | some kev =>
      cases kev with
      | other => exact ih _ _ _ _ hq_tail h
      | key c =>
        simp only at h
        split at h
        · exact ih _ _ _ _ hq_tail h
        · split at h
          · exact ih _ _ _ _ hq_tail h
          · rename_i hc
            split at h
            · rename_i hcq
              exact hq (by rw [hcq]; exact List.mem_cons_self _ _)
            · split at h
              · simp at h
              · exact ih _ _ _ _ hq_tail h

/-- The increase update keeps the rate in `[MIN_WPM, MAX_WPM]` whenever the
rate starts there and the step is at most `MIN_WPM`. -/
theorem increase_wpm_op_range (w step : Nat) (hstep : step ≤ MIN_WPM)
    (h1 : MIN_WPM ≤ w) (h2 : w ≤ MAX_WPM) :
    MIN_WPM ≤ increase_wpm_op w step ∧ increase_wpm_op w step ≤ MAX_WPM := by
  simp only [increase_wpm_op, u64_add, u64_size_eq, MIN_WPM, MAX_WPM] at *
  omega

/-- The decrease update keeps the rate in `[MIN_WPM, MAX_WPM]` whenever the
rate starts there and the step is at most `MIN_WPM` (so the u64 subtraction
cannot underflow). -/
theorem decrease_wpm_op_range (w step : Nat) (hstep : step ≤ MIN_WPM)
    (h1 : MIN_WPM ≤ w) (h2 : w ≤ MAX_WPM) :
    MIN_WPM ≤ decrease_wpm_op w step ∧ decrease_wpm_op w step ≤ MAX_WPM := by
  simp only [decrease_wpm_op, u64_sub, u64_size_eq, MIN_WPM, MAX_WPM] at *
  omega

/-- Rate-range invariant of the pause sub-loop: when the step is at most
`MIN_WPM`, a rate that starts in `[MIN_WPM, MAX_WPM]` is still in range when
the sub-loop resumes, however many increase/decrease commands were
processed. -/
theorem handle_paused_input_wpm_range (cfg : Config)
    (hstep : cfg.wpm_step ≤ MIN_WPM) :
    ∀ (s : Script) (w t w' t' : Nat) (rest : Script),
      MIN_WPM ≤ w → w ≤ MAX_WPM →
      handle_paused_input cfg w t s = .resumed w' t' rest →
      MIN_WPM ≤ w' ∧ w' ≤ MAX_WPM := by
  intro s
  induction s with
  | nil =>
    intro w t w' t' rest _ _ h
    rw [handle_paused_input.eq_def] at h
    simp at h
  | cons e es ih =>
    intro w t w' t' rest h1 h2 h
    rw [handle_paused_input.eq_def] at h
    cases e with
    | none => exact ih _ _ _ _ _ h1 h2 h
    | some kev =>
      cases kev with
      | other => exact ih _ _ _ _ _ h1 h2 h
      | key c =>
        simp only at h
        split at h
        · have := increase_wpm_op_range w cfg.wpm_step hstep h1 h2
          exact ih _ _ _ _ _ this.1 this.2 h
        · split at h
          · have := decrease_wpm_op_range w cfg.wpm_step hstep h1 h2
            exact ih _ _ _ _ _ this.1 this.2 h
          · split at h
            · simp at h
            · split at h
              · simp only [PauseOut.resumed.injEq] at h
                omega
              · exact ih _ _ _ _ _ h1 h2 h

/-- The pause sub-loop returns a result only after consuming a press of the
quit key. -/
theorem handle_paused_input_out_mem (cfg : Config) :
    ∀ (s : Script) (w t : Nat) (r : ReadResult) (rest : Script),
      handle_paused_input cfg w t s = .out r rest →
      some (KeyEv.key cfg.keys.quit) ∈ s := by
  intro s
  induction s with
  | nil =>
    intro w t r rest h
    rw [handle_paused_input.eq_def] at h
    simp at h
  | cons e es ih =>
    intro w t r rest h
    rw [handle_paused_input.eq_def] at h
    cases e with
    | none => exact List.mem_cons_of_mem _ (ih _ _ _ _ h)
    | some kev =>
      cases kev with
      | other => exact List.mem_cons_of_mem _ (ih _ _ _ _ h)
      | key c =>
        simp only at h
        split at h
        · exact List.mem_cons_of_mem _ (ih _ _ _ _ h)
        · split at h
          · exact List.mem_cons_of_mem _ (ih _ _ _ _ h)
          · split at h
            · rename_i hcq
              rw [hcq]
              exact List.mem_cons_self _ _
            · split at h
              · simp at h
              · exact List.mem_cons_of_mem _ (ih _ _ _ _ h)

/-- A pause-key press inside the hold loop hands control to the pause
sub-loop, and the hold loop's outcome is determined by the sub-loop's
outcome exactly as in the source. -/
theorem hold_loop_pause_eq (cfg : Config) (dur w e : Nat) (rest : Script)
    (hlt : e < dur) (hpq : ¬cfg.keys.pause = cfg.keys.quit) (out : HoldOut)
    (h : hold_loop cfg dur w e (some (.key cfg.keys.pause) :: rest) = out) :
    (∃ r prest, handle_paused_input cfg w 0 rest = .out r prest ∧
      out = if r.success = true ∧ r.wpm.isSome = true
            then .restart prest else .finished r)
    ∨ (∃ w' t prest, handle_paused_input cfg w 0 rest = .resumed w' t prest ∧
      out = hold_loop cfg dur w' (e + t) prest)
    ∨ (handle_paused_input cfg w 0 rest = .starved ∧ out = .starved) := by
  rw [hold_loop.eq_def] at h
  simp [hlt, hpq] at h
  split at h <;> rename_i heq
  · left
    exact ⟨_, _, heq, h.symm⟩
  · right; left
    exact ⟨_, _, _, heq, h.symm⟩
  · right; right
    exact ⟨heq, h.symm⟩

/-- Combined characterization of the hold loop's outcomes: it never reaches
the restart call site, an early `finished` result is always the quit arm's
Cancelled result and requires a quit-key press in the script, and a normal
`done` exit leaves a suffix of the script unconsumed. -/
theorem hold_loop_cases (cfg : Config) (dur : Nat) :
    ∀ (w e : Nat) (s : Script),
      (∀ rest, hold_loop cfg dur w e s ≠ .restart rest)
      ∧ (∀ r, hold_loop cfg dur w e s = .finished r →
          r = ⟨false, none⟩ ∧ some (KeyEv.key cfg.keys.quit) ∈ s)
      ∧ (∀ w' rest, hold_loop cfg dur w e s = .done w' rest → rest <:+ s) := by
  intro w e s
  induction w, e, s using hold_loop.induct cfg dur with
  | case1 w e hlt =>
    refine ⟨fun rest h => ?_, fun r h => ?_, fun w' rest h => ?_⟩ <;>
      rw [hold_loop.eq_def] at h <;> simp [hlt] at h
    simp [h.2]
  | case2 w e hlt rest ih =>
    refine ⟨fun rest2 h => ?_, fun r h => ?_, fun w' rest2 h => ?_⟩ <;>
      rw [hold_loop.eq_def] at h <;> simp only [dif_pos hlt] at h
    · exact ih.1 rest2 h
    · have := ih.2.1 r h
      exact ⟨this.1, List.mem_cons_of_mem _ this.2⟩
    · exact (ih.2.2 w' rest2 h).trans (List.suffix_cons _ _)
  | case3 w e hlt rest ih =>
    refine ⟨fun rest2 h => ?_, fun r h => ?_, fun w' rest2 h => ?_⟩ <;>
      rw [hold_loop.eq_def] at h <;> simp only [dif_pos hlt] at h
    · exact ih.1 rest2 h
    · have := ih.2.1 r h
      exact ⟨this.1, List.mem_cons_of_mem _ this.2⟩
    · exact (ih.2.2 w' rest2 h).trans (List.suffix_cons _ _)
  | case4 w e hlt rest =>
    refine ⟨fun rest2 h => ?_, fun r h => ?_, fun w' rest2 h => ?_⟩ <;>
      rw [hold_loop.eq_def] at h <;> simp [hlt] at h
    exact ⟨by simp [← h], List.mem_cons_self _ _⟩
  | case5 w e hlt rest r prest hp hcond hpq =>
    have := handle_paused_input_out_shape cfg _ _ _ _ _ hp
    rw [this] at hcond
    simp at hcond
  | case6 w e hlt rest r prest hp hcond hpq =>
    have hout := handle_paused_input_out_shape cfg _ _ _ _ _ hp
    have hmem := handle_paused_input_out_mem cfg _ _ _ _ _ hp
    refine ⟨fun rest2 h => ?_, fun r2 h => ?_, fun w' rest2 h => ?_⟩ <;>
        rcases hold_loop_pause_eq cfg dur w e rest hlt hpq _ h with
          ⟨r3, p3, heq, ho⟩ | ⟨w3, t3, p3, heq, ho⟩ | ⟨heq, ho⟩ <;>
        rw [hp] at heq <;> try simp at heq
    · obtain ⟨h1, h2⟩ := heq
      subst h1; subst h2
      rw [hout] at ho
      simp at ho
    · obtain ⟨h1, h2⟩ := heq
      subst h1; subst h2
      rw [hout] at ho
      simp at ho
      exact ⟨ho, List.mem_cons_of_mem _ hmem⟩
    · obtain ⟨h1, h2⟩ := heq
      subst h1; subst h2
      rw [hout] at ho
      simp at ho
  | case7 w e hlt rest w2 t2 prest hp hpq ih =>
    have hsfx := handle_paused_input_resumed_rest cfg _ _ _ _ _ _ hp
    refine ⟨fun rest2 h => ?_, fun r2 h => ?_, fun w' rest2 h => ?_⟩ <;>
        rcases hold_loop_pause_eq cfg dur w e rest hlt hpq _ h with
          ⟨r3, p3, heq, ho⟩ | ⟨w3, t3, p3, heq, ho⟩ | ⟨heq, ho⟩ <;>
        rw [hp] at heq <;> try simp at heq
    · obtain ⟨h1, h2, h3⟩ := heq
      subst h1; subst h2; subst h3
      exact ih.1 rest2 ho.symm
    · obtain ⟨h1, h2, h3⟩ := heq
      subst h1; subst h2; subst h3
      have := ih.2.1 r2 ho.symm
      exact ⟨this.1, List.mem_cons_of_mem _ (hsfx.subset this.2)⟩
    · obtain ⟨h1, h2, h3⟩ := heq
      subst h1; subst h2; subst h3
      have := ih.2.2 w' rest2 ho.symm
      exact (this.trans hsfx).trans (List.suffix_cons _ _)
  | case8 w e hlt rest hp hpq =>
    refine ⟨fun rest2 h => ?_, fun r2 h => ?_, fun w' rest2 h => ?_⟩ <;>
        rcases hold_loop_pause_eq cfg dur w e rest hlt hpq _ h with
          ⟨r3, p3, heq, ho⟩ | ⟨w3, t3, p3, heq, ho⟩ | ⟨heq, ho⟩ <;>
        rw [hp] at heq <;> try simp at heq
    all_goals simp at ho
  | case9 w e hlt rest c hcq hcp ih =>
    refine ⟨fun rest2 h => ?_, fun r h => ?_, fun w' rest2 h => ?_⟩ <;>
      rw [hold_loop.eq_def] at h <;> simp [hlt, hcq, hcp] at h
    · exact ih.1 rest2 h
    · have := ih.2.1 r h
      exact ⟨this.1, List.mem_cons_of_mem _ this.2⟩
    · exact (ih.2.2 w' rest2 h).trans (List.suffix_cons _ _)
  | case10 w e s hlt =>
    refine ⟨fun rest2 h => ?_, fun r h => ?_, fun w' rest2 h => ?_⟩ <;>
      rw [hold_loop.eq_def] at h <;> simp [hlt] at h
    rw [← h.2]

/-- The token loop never reaches the recursive restart call site of
`speed_read`. -/
theorem speed_read_tokens_no_restart (cfg : Config) :
    ∀ (words : List (List Char)) (i w : Nat) (s : Script)
      (rest : Script) (frames : List WordFrame),
      speed_read_tokens cfg words i w s ≠ .restart_call rest frames := by
  intro words
  induction words with
  | nil =>
    intro i w s rest frames h
    rw [speed_read_tokens.eq_def] at h
    simp at h
  | cons wd ws ih =>
    intro i w s rest frames h
    rw [speed_read_tokens.eq_def] at h
    simp only at h
    cases hh : hold_loop cfg (dur_wpm w) w 0 s with
    | finished r => rw [hh] at h; simp at h
    | restart prest => exact (hold_loop_cases cfg (dur_wpm w) w 0 s).1 prest hh
    | starved => rw [hh] at h; simp at h
    | done w2 s2 =>
      rw [hh] at h
      simp only at h
      cases hrec : speed_read_tokens cfg ws (i + 1) w2 s2 with
      | result r frames2 => rw [hrec] at h; simp at h
      | restart_call rest2 frames2 => exact ih _ _ _ _ _ hrec
      | starved frames2 => rw [hrec] at h; simp at h

/-- The driver loop is the identity on the token loop: since the restart
call site is unreachable, one pass of `speed_read_tokens` is the whole
session. -/
theorem speed_read_run_eq (cfg : Config) (words : List (List Char))
    (script : Script) :
    speed_read_run cfg words script = speed_read_tokens cfg words 0 cfg.wpm script := by
  rw [speed_read_run.eq_def]
  cases hh : speed_read_tokens cfg words 0 cfg.wpm script with
  | result r frames => rfl
  | restart_call rest frames => exact absurd hh (speed_read_tokens_no_restart cfg _ _ _ _ _ _)
  | starved frames => rfl

/-- Characterization of a `.result` outcome of the token loop: a failed
result is exactly the quit arm's Cancelled result (and requires a quit-key
press in the script); a result reached without any quit-key press in the
script is Completed, reports a rate, and renders exactly one frame per
token, in order, with consecutive 1-based positions. -/
theorem speed_read_tokens_result (cfg : Config) :
    ∀ (words : List (List Char)) (i w : Nat) (s : Script)
      (r : ReadResult) (frames : List WordFrame),
      speed_read_tokens cfg words i w s = .result r frames →
      (r.success = false → r = ⟨false, none⟩ ∧ some (KeyEv.key cfg.keys.quit) ∈ s)
      ∧ (some (KeyEv.key cfg.keys.quit) ∉ s →
          r.success = true ∧ (∃ v, r.wpm = some v)
          ∧ frames.map WordFrame.word = words
          ∧ frames.map WordFrame.index = List.range' i words.length) := by
  intro words
  induction words with
  | nil =>
    intro i w s r frames h
    rw [speed_read_tokens.eq_def] at h
    simp only [RunOut.result.injEq] at h
    obtain ⟨h1, h2⟩ := h
    subst h1; subst h2
    constructor
    · intro hf
      simp at hf
    · intro _
      exact ⟨rfl, ⟨w, rfl⟩, rfl, rfl⟩
  | cons wd ws ih =>
    intro i w s r frames h
    rw [speed_read_tokens.eq_def] at h
    simp only at h
    cases hh : hold_loop cfg (dur_wpm w) w 0 s with
    | finished r0 =>
      rw [hh] at h
      simp only [RunOut.result.injEq] at h
      obtain ⟨h1, h2⟩ := h
      subst h1; subst h2
      have := (hold_loop_cases cfg (dur_wpm w) w 0 s).2.1 r0 hh
      constructor
      · intro _
        exact this
      · intro hnq
        exact absurd this.2 hnq
    | restart prest => exact absurd hh ((hold_loop_cases cfg (dur_wpm w) w 0 s).1 prest)
    | starved => rw [hh] at h; simp at h
    | done w2 s2 =>
      have hsfx := (hold_loop_cases cfg (dur_wpm w) w 0 s).2.2 w2 s2 hh
      rw [hh] at h
      simp only at h
      cases hrec : speed_read_tokens cfg ws (i + 1) w2 s2 with
      | result r2 frames2 =>
        rw [hrec] at h
        simp only [RunOut.result.injEq] at h
        obtain ⟨h1, h2⟩ := h
        subst h1; subst h2
        have hih := ih (i + 1) w2 s2 r2 frames2 hrec
        constructor
        · intro hf
          have := hih.1 hf
          exact ⟨this.1, hsfx.subset this.2⟩
        · intro hnq
          have hnq2 : some (KeyEv.key cfg.keys.quit) ∉ s2 :=
            fun hm => hnq (hsfx.subset hm)
          have := hih.2 hnq2
          refine ⟨this.1, this.2.1, ?_, ?_⟩
          · simp only [List.map_cons, this.2.2.1]
          · simp only [List.map_cons, this.2.2.2, List.length_cons]
            rw [List.range'_succ]
      | restart_call rest2 frames2 =>
        exact absurd hrec (speed_read_tokens_no_restart cfg _ _ _ _ _ _)
      | starved frames2 => rw [hrec] at h; simp at h

/-- Whatever the outcome, the frames rendered by the token loop carry
consecutive indices starting at the loop's starting index: playback never
goes back to an earlier token. -/
theorem speed_read_tokens_frames_index (cfg : Config) :
    ∀ (words : List (List Char)) (i w : Nat) (s : Script),
      (speed_read_tokens cfg words i w s).frames.map WordFrame.index =
        List.range' i (speed_read_tokens cfg words i w s).frames.length := by
  intro words
  induction words with
  | nil =>
    intro i w s
    rw [speed_read_tokens.eq_def]
    simp [RunOut.frames]
  | cons wd ws ih =>
    intro i w s
    rw [speed_read_tokens.eq_def]
    simp only
    cases hh : hold_loop cfg (dur_wpm w) w 0 s with
    | finished r0 => simp [RunOut.frames, List.range'_succ]
    | restart prest => exact absurd hh ((hold_loop_cases cfg (dur_wpm w) w 0 s).1 prest)
    | starved => simp [RunOut.frames, List.range'_succ]
    | done w2 s2 =>
      simp only
      have hih := ih (i + 1) w2 s2
      cases hrec : speed_read_tokens cfg ws (i + 1) w2 s2 with
      | result r2 frames2 =>
        rw [hrec] at hih
        simp only [RunOut.frames] at hih ⊢
        simp [hih, List.range'_succ]
      | restart_call rest2 frames2 =>
        exact absurd hrec (speed_read_tokens_no_restart cfg _ _ _ _ _ _)
      | starved frames2 =>
        rw [hrec] at hih
        simp only [RunOut.frames] at hih ⊢
        simp [hih, List.range'_succ]

/-- The first frame rendered for a non-empty token list shows the first
token at the loop's starting rate, with the hold duration computed from
that same rate. -/
theorem speed_read_tokens_head (cfg : Config) (wd : List Char)
    (ws : List (List Char)) (i cw : Nat) (s : Script) :
    (speed_read_tokens cfg (wd :: ws) i cw s).frames.head? =
      some ⟨i, wd, cw, dur_wpm cw⟩ := by
  rw [speed_read_tokens.eq_def]
  simp only
  cases hh : hold_loop cfg (dur_wpm cw) cw 0 s with
  | finished r0 => simp [RunOut.frames]
  | restart prest => exact absurd hh ((hold_loop_cases cfg (dur_wpm cw) cw 0 s).1 prest)
  | starved => simp [RunOut.frames]
  | done w2 s2 =>
    simp only
    cases hrec : speed_read_tokens cfg ws (i + 1) w2 s2 with
    | result r2 frames2 => simp [RunOut.frames]
    | restart_call rest2 frames2 =>
      exact absurd hrec (speed_read_tokens_no_restart cfg _ _ _ _ _ _)
    | starved frames2 => simp [RunOut.frames]

/-- Closed form of the countdown loop: starting `elapsed` seconds in, it
renders the remaining values from `seconds - elapsed` down to `0`, each with
the label exactly when the remaining value is positive. -/
theorem display_countdown_go_eq :
    ∀ (seconds elapsed : Nat),
      display_countdown_go seconds elapsed =
        (List.range (seconds - elapsed + 1)).reverse.map
          (fun r => (⟨r, decide (0 < r)⟩ : CountdownFrame)) := by
  intro seconds elapsed
  induction elapsed using display_countdown_go.induct seconds with
  | case1 e hle =>
    rw [display_countdown_go.eq_def]
    simp only [dif_pos hle]
    have h0 : seconds - e = 0 := by omega
    rw [h0]
    decide
  | case2 e hle ih =>
    have haux : ∀ n : Nat, (List.range (n + 1)).reverse = n :: (List.range n).reverse := by
      intro n
      rw [List.range_succ, List.reverse_append]
      rfl
    rw [display_countdown_go.eq_def]
    simp only [dif_neg hle]
    have hk : seconds - e = (seconds - (e + 1)) + 1 := by omega
    rw [hk, haux, List.map_cons, ih]

/-- On an all-whitespace remainder, the chunk splitter only flushes its
accumulator. -/
theorem split_whitespace_go_all_ws :
    ∀ (s : List Char) (acc : List Char),
      (∀ c ∈ s, c.isWhitespace = true) →
      split_whitespace_go s acc = if acc = [] then [] else [acc.reverse] := by
  intro s
  induction s with
  | nil =>
    intro acc _
    rw [split_whitespace_go.eq_def]
  | cons c cs ih =>
    intro acc hws
    have hc : c.isWhitespace = true := hws c (List.mem_cons_self _ _)
    have hcs : ∀ x ∈ cs, x.isWhitespace = true :=
      fun x hx => hws x (List.mem_cons_of_mem _ hx)
    rw [split_whitespace_go.eq_def]
    simp only [hc, if_true]
    split
    · rw [ih [] hcs]
      simp
    · rw [ih [] hcs]
      simp

/-! ### Claim theorems -/

/-- Claim C1, counterexample: a session over tokens `aa`, `bb` in which the
user pauses during token 0, presses increase-rate once while paused, and
resumes, continues with token 1 at the new rate 305 and completes; playback
does not restart from token index 0 (the frame list shows each token exactly
once, in order, and no second frame for token 0 after the resume). -/
theorem pause_rate_change_restart_cex :
    speed_read ⟨300, 5, ⟨'q', 'p', '+', '-'⟩⟩ ['a', 'a', ' ', 'b', 'b']
        [some (.key 'p'), some (.key '+'), some (.key 'p')] =
      .result ⟨true, some 305⟩
        [⟨0, ['a', 'a'], 300, 200⟩, ⟨1, ['b', 'b'], 305, 196⟩] := by
  have ht : tokenize_text ['a', 'a', ' ', 'b', 'b'] = [['a', 'a'], ['b', 'b']] := by decide
  rw [speed_read, ht]
  rw [speed_read_run.eq_def]
  rw [speed_read_tokens.eq_def]
  rw [hold_loop.eq_def]
  simp +decide [dur_wpm, handle_paused_input, increase_wpm_op, u64_add, U64_SIZE, MAX_WPM]
  rw [hold_loop.eq_def]
  simp +decide
  rw [speed_read_tokens.eq_def]
  simp +decide [dur_wpm]
  rw [hold_loop.eq_def]
  simp +decide

/-- Claim C1, amended: pausing, changing the rate, and resuming never
restarts playback from token 0.  The pause sub-loop returns a result only on
quit, with `success = false` and no rate, so the restart branch of
`speed_read` (which requires `success && wpm.is_some()`) is unreachable: the
session is a single pass of the token loop, and the frames it renders carry
strictly consecutive indices.  The changed rate does take effect for the
holds of the tokens rendered after the resume (their frames record the
updated rate). -/
theorem pause_rate_change_resume_continues (cfg : Config) :
    (∀ (s : Script) (w t : Nat) (r : ReadResult) (rest : Script),
        handle_paused_input cfg w t s = .out r rest → r = ⟨false, none⟩)
    ∧ (∀ (words : List (List Char)) (script : Script),
        speed_read_run cfg words script = speed_read_tokens cfg words 0 cfg.wpm script)
    ∧ (∀ (words : List (List Char)) (i w : Nat) (script : Script),
        (speed_read_tokens cfg words i w script).frames.map WordFrame.index =
          List.range' i (speed_read_tokens cfg words i w script).frames.length) :=
  ⟨handle_paused_input_out_shape cfg, speed_read_run_eq cfg,
    speed_read_tokens_frames_index cfg⟩

/-- Witness for the amended claim C1 at concrete inputs. -/
theorem pause_rate_change_resume_continues_witness :
    (⟨false, none⟩ : ReadResult) = ⟨false, none⟩
    ∧ speed_read_run ⟨300, 5, ⟨'q', 'p', '+', '-'⟩⟩ [['a', 'a']] [] =
        speed_read_tokens ⟨300, 5, ⟨'q', 'p', '+', '-'⟩⟩ [['a', 'a']] 0 300 []
    ∧ (speed_read_tokens ⟨300, 5, ⟨'q', 'p', '+', '-'⟩⟩ [['a', 'a']] 0 300 []).frames.map
          WordFrame.index =
        List.range' 0
          (speed_read_tokens ⟨300, 5, ⟨'q', 'p', '+', '-'⟩⟩ [['a', 'a']] 0 300
              []).frames.length := by
  refine ⟨?_, ?_, ?_⟩
  · exact (pause_rate_change_resume_continues ⟨300, 5, ⟨'q', 'p', '+', '-'⟩⟩).1
      [some (.key 'q')] 300 0 ⟨false, none⟩ [] (by decide)
  · exact (pause_rate_change_resume_continues ⟨300, 5, ⟨'q', 'p', '+', '-'⟩⟩).2.1 [['a', 'a']] []
  · exact (pause_rate_change_resume_continues ⟨300, 5, ⟨'q', 'p', '+', '-'⟩⟩).2.2
      [['a', 'a']] 0 300 []

/-- Claim C2, counterexample: with step size 200 and the rate at 150 (the
minimum, hence in range), one decrease-rate command processed by the pause
sub-loop wraps the u64 subtraction around and leaves the rate at
`2^64 - 50`, far above `MAX_WPM`: the rate after the command does not lie in
`[150, 1000]`. -/
theorem rate_clamp_cex :
    handle_paused_input ⟨300, 200, ⟨'q', 'p', '+', '-'⟩⟩ 150 0
        [some (.key '-'), some (.key 'p')] =
      .resumed 18446744073709551566 0 []
    ∧ MIN_WPM ≤ 150 ∧ 150 ≤ MAX_WPM ∧ MAX_WPM < 18446744073709551566 := by
  decide

/-- Claim C2, amended: for every starting rate in `[MIN_WPM, MAX_WPM]` and
every step size at most `MIN_WPM` (so that the u64 subtraction of the
decrease command cannot underflow), the rate after any finite sequence of
increase-rate and decrease-rate commands processed by the pause sub-loop
still lies in `[MIN_WPM, MAX_WPM] = [150, 1000]`: an increase never yields a
value above 1000 even when the sum would exceed it, and a decrease never
yields a value below 150. -/
theorem rate_clamp_invariant (cfg : Config) (s : Script) (w t w' t' : Nat)
    (rest : Script) (hstep : cfg.wpm_step ≤ MIN_WPM)
    (h1 : MIN_WPM ≤ w) (h2 : w ≤ MAX_WPM)
    (h : handle_paused_input cfg w t s = .resumed w' t' rest) :
    MIN_WPM ≤ w' ∧ w' ≤ MAX_WPM :=
  handle_paused_input_wpm_range cfg hstep s w t w' t' rest h1 h2 h

/-- Witness for the amended claim C2: starting at the maximum rate 1000 with
step 5, an increase (clamped to 1000) followed by a decrease leaves the rate
at 995, inside the range. -/
theorem rate_clamp_invariant_witness : MIN_WPM ≤ 995 ∧ 995 ≤ MAX_WPM := by
  exact rate_clamp_invariant ⟨300, 5, ⟨'q', 'p', '+', '-'⟩⟩
    [some (.key '+'), some (.key '-'), some (.key 'p')] 1000 0 995 0 []
    (by decide) (by decide) (by decide) (by decide)

/-- Claim C3, counterexample: the rates 601 and 602 are both in the valid
range and 601 < 602, yet `60000 / 601 = 60000 / 602 = 99` under integer
division: the hold duration at the smaller rate is not strictly greater. -/
theorem hold_duration_strict_cex :
    MIN_WPM ≤ 601 ∧ 602 ≤ MAX_WPM ∧ 601 < 602
    ∧ dur_wpm 601 = dur_wpm 602 ∧ ¬dur_wpm 602 < dur_wpm 601 := by
  decide

/-- Claim C3, amended: for rates `R1 < R2` in the valid range, the per-token
hold duration `60000 / rate` (integer division) at `R1` is greater than or
equal to the one at `R2` (monotonically non-increasing, but not strictly). -/
theorem hold_duration_antitone (r1 r2 : Nat) (h1 : MIN_WPM ≤ r1)
    (h2 : r2 ≤ MAX_WPM) (h12 : r1 < r2) : dur_wpm r2 ≤ dur_wpm r1 := by
  have hpos : 0 < r1 := by
    have : (150 : Nat) ≤ r1 := h1
    omega
  exact Nat.div_le_div_left h12.le hpos

/-- Witness for the amended claim C3: `dur_wpm 600 = 100 ≤ 200 = dur_wpm 300`. -/
theorem hold_duration_antitone_witness : dur_wpm 600 ≤ dur_wpm 300 :=
  hold_duration_antitone 300 600 (by decide) (by decide) (by decide)

/-- Claim C4: whenever the quit key is processed — in the running pacing
loop (where the quit arm is matched first) or in the pause sub-loop (where
it is matched after the increase/decrease arms, so those bindings must not
shadow it) — the session returns the Cancelled result with `success = false`
and no reported rate, regardless of how many tokens remain; and every failed
result the token loop can produce reports no rate. -/
theorem quit_immediacy (cfg : Config) :
    (∀ (dur w e : Nat) (rest : Script), e < dur →
        hold_loop cfg dur w e (some (.key cfg.keys.quit) :: rest) =
          .finished ⟨false, none⟩)
    ∧ (∀ (w t : Nat) (rest : Script),
        cfg.keys.quit ≠ cfg.keys.increase_wpm →
        cfg.keys.quit ≠ cfg.keys.decrease_wpm →
        handle_paused_input cfg w t (some (.key cfg.keys.quit) :: rest) =
          .out ⟨false, none⟩ rest)
    ∧ (∀ (words : List (List Char)) (i w : Nat) (s : Script) (r : ReadResult)
        (frames : List WordFrame),
        speed_read_tokens cfg words i w s = .result r frames →
        r.success = false → r = ⟨false, none⟩) := by
  refine ⟨?_, ?_, ?_⟩
  · intro dur w e rest hlt
    rw [hold_loop.eq_def]
    simp [hlt]
  · intro w t rest h1 h2
    rw [handle_paused_input.eq_def]
    simp [h1, h2]
  · intro words i w s r frames h hf
    exact ((speed_read_tokens_result cfg words i w s r frames h).1 hf).1

/-- Witness for claim C4 at concrete inputs: a quit press cancels the
running hold loop, cancels the pause sub-loop, and the Cancelled result
carries no rate. -/
theorem quit_immediacy_witness :
    hold_loop ⟨300, 5, ⟨'q', 'p', '+', '-'⟩⟩ 200 300 0 [some (.key 'q')] =
      .finished ⟨false, none⟩
    ∧ handle_paused_input ⟨300, 5, ⟨'q', 'p', '+', '-'⟩⟩ 300 0 [some (.key 'q')] =
        .out ⟨false, none⟩ []
    ∧ (⟨false, none⟩ : ReadResult) = ⟨false, none⟩ := by
  have hrun : speed_read_tokens ⟨300, 5, ⟨'q', 'p', '+', '-'⟩⟩ [['a']] 0 300
      [some (.key 'q')] = .result ⟨false, none⟩ [⟨0, ['a'], 300, 200⟩] := by
    rw [speed_read_tokens.eq_def]
    rw [hold_loop.eq_def]
    simp +decide [dur_wpm]
  refine ⟨?_, ?_, ?_⟩
  · exact (quit_immediacy ⟨300, 5, ⟨'q', 'p', '+', '-'⟩⟩).1 200 300 0 [] (by decide)
  · exact (quit_immediacy ⟨300, 5, ⟨'q', 'p', '+', '-'⟩⟩).2.1 300 0 [] (by decide) (by decide)
  · exact (quit_immediacy ⟨300, 5, ⟨'q', 'p', '+', '-'⟩⟩).2.2 [['a']] 0 300
      [some (.key 'q')] ⟨false, none⟩ [⟨0, ['a'], 300, 200⟩] hrun rfl

/-- Claim C5: for a session whose script never delivers a press of the quit
key and that returns a result, the result is Completed (`success = true`)
with a reported rate, and the pacing loop rendered exactly one frame per
token of the tokenized input, in order, with consecutive indices `0..N-1`.
The reported rate is by construction the rate the loop holds when the final
token's hold has elapsed (the `.done` rate threaded into the final
Completed result). -/
theorem completed_sequence (cfg : Config) (buf : List Char) (script : Script)
    (r : ReadResult) (frames : List WordFrame)
    (hq : some (KeyEv.key cfg.keys.quit) ∉ script)
    (h : speed_read cfg buf script = .result r frames) :
    r.success = true ∧ (∃ v, r.wpm = some v)
    ∧ frames.map WordFrame.word = tokenize_text buf
    ∧ frames.map WordFrame.index = List.range (tokenize_text buf).length := by
  rw [speed_read, speed_read_run_eq] at h
  have hres := (speed_read_tokens_result cfg _ _ _ _ _ _ h).2 hq
  refine ⟨hres.1, hres.2.1, hres.2.2.1, ?_⟩
  rw [hres.2.2.2, List.range_eq_range']

/-- Witness for claim C5: the two-token session with a rate change while
paused (no quit) completes with the changed rate 305 and renders the two
frames in order. -/
theorem completed_sequence_witness :
    (⟨true, some 305⟩ : ReadResult).success = true
    ∧ (∃ v, (⟨true, some 305⟩ : ReadResult).wpm = some v)
    ∧ ([⟨0, ['a', 'a'], 300, 200⟩, ⟨1, ['b', 'b'], 305, 196⟩] :
          List WordFrame).map WordFrame.word =
        tokenize_text ['a', 'a', ' ', 'b', 'b']
    ∧ ([⟨0, ['a', 'a'], 300, 200⟩, ⟨1, ['b', 'b'], 305, 196⟩] :
          List WordFrame).map WordFrame.index =
        List.range (tokenize_text ['a', 'a', ' ', 'b', 'b']).length := by
  have hrun : speed_read ⟨300, 5, ⟨'q', 'p', '+', '-'⟩⟩ ['a', 'a', ' ', 'b', 'b']
      [some (.key 'p'), some (.key '+'), some (.key 'p')] =
      .result ⟨true, some 305⟩
        [⟨0, ['a', 'a'], 300, 200⟩, ⟨1, ['b', 'b'], 305, 196⟩] := by
    have ht : tokenize_text ['a', 'a', ' ', 'b', 'b'] = [['a', 'a'], ['b', 'b']] := by decide
    rw [speed_read, ht]
    rw [speed_read_run.eq_def]
    rw [speed_read_tokens.eq_def]
    rw [hold_loop.eq_def]
    simp +decide [dur_wpm, handle_paused_input, increase_wpm_op, u64_add, U64_SIZE, MAX_WPM]
    rw [hold_loop.eq_def]
    simp +decide
    rw [speed_read_tokens.eq_def]
    simp +decide [dur_wpm]
    rw [hold_loop.eq_def]
    simp +decide
  exact completed_sequence ⟨300, 5, ⟨'q', 'p', '+', '-'⟩⟩ ['a', 'a', ' ', 'b', 'b']
    [some (.key 'p'), some (.key '+'), some (.key 'p')] ⟨true, some 305⟩
    [⟨0, ['a', 'a'], 300, 200⟩, ⟨1, ['b', 'b'], 305, 196⟩] (by decide) hrun

/-- Claim C6: the tokenizer produces exactly one token per
whitespace-delimited chunk (it is the chunk list mapped through the
alphanumeric filter, so the counts agree and order is preserved), every
produced token contains only alphanumeric characters, an all-whitespace
input yields the empty sequence, and a chunk that is entirely punctuation
yields the empty token (input `--`). -/
theorem tokenize_text_spec (text : List Char) :
    (tokenize_text text).length = (split_whitespace text).length
    ∧ (∀ t ∈ tokenize_text text, ∀ c ∈ t, c.isAlphanum = true)
    ∧ ((∀ c ∈ text, c.isWhitespace = true) → tokenize_text text = [])
    ∧ tokenize_text ['-', '-'] = [[]] := by
  refine ⟨by simp [tokenize_text], ?_, ?_, by decide⟩
  · intro t ht c hc
    simp only [tokenize_text, List.mem_map] at ht
    obtain ⟨u, _, rfl⟩ := ht
    exact (List.mem_filter.mp hc).2
  · intro hws
    simp only [tokenize_text, split_whitespace]
    rw [split_whitespace_go_all_ws text [] hws]
    simp

/-- Witness for claim C6: two spaces tokenize to the empty sequence, and the
letter of the chunk `a-` survives the filter as an alphanumeric character. -/
theorem tokenize_text_spec_witness :
    tokenize_text [' ', ' '] = [] ∧ 'a'.isAlphanum = true := by
  constructor
  · exact (tokenize_text_spec [' ', ' ']).2.2.1 (by decide)
  · exact (tokenize_text_spec ['a', '-']).2.1 ['a'] (by decide) 'a' (by decide)

/-- Claim C7: for every input whose token sequence is empty, the pacing loop
returns Completed carrying the starting rate with no word frame rendered,
whatever the script holds (no input command is consulted: the quantification
over every script, including ones holding a quit press, shows the result is
independent of the input events). -/
theorem empty_sequence_completed (cfg : Config) (buf : List Char)
    (script : Script) (h : tokenize_text buf = []) :
    speed_read cfg buf script = .result ⟨true, some cfg.wpm⟩ [] := by
  rw [speed_read, speed_read_run_eq, h]
  rw [speed_read_tokens.eq_def]

/-- Witness for claim C7: an all-whitespace buffer completes immediately at
the starting rate 258 even though the script holds a quit press. -/
theorem empty_sequence_completed_witness :
    speed_read ⟨258, 5, ⟨'q', ' ', '+', '-'⟩⟩ [' '] [some (.key 'q')] =
      .result ⟨true, some 258⟩ [] :=
  empty_sequence_completed ⟨258, 5, ⟨'q', ' ', '+', '-'⟩⟩ [' ']
    [some (.key 'q')] (by decide)

/-- Claim C8: a countdown of `N` whole seconds renders the remaining values
`N` down to `0` inclusive, the "Starting in..." label is rendered on a frame
exactly when that frame's remaining value is positive, and the final frame
is `remaining = 0` without the label. -/
theorem countdown_stage (seconds : Nat) :
    (display_countdown seconds).map CountdownFrame.remaining =
        (List.range (seconds + 1)).reverse
    ∧ (∀ f ∈ display_countdown seconds, (f.label_shown = true ↔ 0 < f.remaining))
    ∧ ∃ fs, display_countdown seconds = fs ++ [⟨0, false⟩] := by
  have hd : display_countdown seconds =
      (List.range (seconds + 1)).reverse.map
        (fun r => (⟨r, decide (0 < r)⟩ : CountdownFrame)) := by
    rw [display_countdown, display_countdown_go_eq]
    simp
  refine ⟨?_, ?_, ?_⟩
  · rw [hd]
    simp [Function.comp_def]
  · intro f hf
    rw [hd] at hf
    simp only [List.mem_map] at hf
    obtain ⟨r, _, rfl⟩ := hf
    simp
  · refine ⟨((List.range seconds).map Nat.succ).reverse.map
      (fun r => (⟨r, decide (0 < r)⟩ : CountdownFrame)), ?_⟩
    rw [hd, List.range_succ_eq_map]
    simp

/-- Witness for claim C8 at `N = 3`: the frames are `3, 2, 1` with the label
and `0` without it, and the first frame's label is indeed tied to its
positive remaining value. -/
theorem countdown_stage_witness :
    (display_countdown 3).map CountdownFrame.remaining = (List.range 4).reverse
    ∧ ((⟨3, true⟩ : CountdownFrame).label_shown = true ↔
        0 < (⟨3, true⟩ : CountdownFrame).remaining) := by
  have h3 : display_countdown 3 = [⟨3, true⟩, ⟨2, true⟩, ⟨1, true⟩, ⟨0, false⟩] := by
    rw [display_countdown, display_countdown_go_eq]
    decide
  constructor
  · exact (countdown_stage 3).1
  · exact (countdown_stage 3).2.1 ⟨3, true⟩ (by rw [h3]; decide)

/-- Claim C9: a rate requested through the `--wpm` command-line argument is
clamped into `[MIN_WPM, MAX_WPM]` (and kept as requested when already in
range), while a rate loaded from the configuration file is passed through
unclamped — whatever it is, 0 or any value outside `[150, 1000]` — and that
configured rate is the one shown on the first rendered frame and used to
compute the first token's hold duration `60000 / rate`. -/
theorem config_rate_source :
    (∀ (loaded wreq : Nat),
        MIN_WPM ≤ from_args_wpm loaded (some wreq)
        ∧ from_args_wpm loaded (some wreq) ≤ MAX_WPM)
    ∧ (∀ (loaded wreq : Nat), MIN_WPM ≤ wreq → wreq ≤ MAX_WPM →
        from_args_wpm loaded (some wreq) = wreq)
    ∧ (∀ loaded : Nat, from_args_wpm loaded none = loaded)
    ∧ (∀ (cfg : Config) (buf : List Char) (script : Script)
        (wd : List Char) (ws : List (List Char)),
        tokenize_text buf = wd :: ws →
        (speed_read cfg buf script).frames.head? =
          some ⟨0, wd, cfg.wpm, dur_wpm cfg.wpm⟩) := by
  refine ⟨?_, ?_, ?_, ?_⟩
  · intro loaded wreq
    simp only [from_args_wpm, MIN_WPM, MAX_WPM]
    omega
  · intro loaded wreq h1 h2
    simp only [from_args_wpm, MIN_WPM, MAX_WPM] at h1 h2 ⊢
    omega
  · intro loaded
    rfl
  · intro cfg buf script wd ws ht
    rw [speed_read, speed_read_run_eq, ht]
    exact speed_read_tokens_head cfg wd ws 0 cfg.wpm script

/-- Witness for claim C9: the argument rate 99 is clamped into range and 300
is kept; the loaded rate 0 passes through unclamped; a session configured
with the out-of-range rate 2000 renders its first frame at rate 2000 with
hold duration `60000 / 2000 = 30`. -/
theorem config_rate_source_witness :
    (MIN_WPM ≤ from_args_wpm 0 (some 99) ∧ from_args_wpm 0 (some 99) ≤ MAX_WPM)
    ∧ from_args_wpm 0 (some 300) = 300
    ∧ from_args_wpm 0 none = 0
    ∧ (speed_read ⟨2000, 5, ⟨'q', 'p', '+', '-'⟩⟩ ['a'] []).frames.head? =
        some ⟨0, ['a'], 2000, 30⟩ := by
  refine ⟨?_, ?_, ?_, ?_⟩
  · exact config_rate_source.1 0 99
  · exact config_rate_source.2.1 0 300 (by decide) (by decide)
  · exact config_rate_source.2.2.1 0
  · exact config_rate_source.2.2.2 ⟨2000, 5, ⟨'q', 'p', '+', '-'⟩⟩ ['a'] []
      ['a'] [] (by decide)

/-- Claim C10: the decrease-rate operation of the pause sub-loop computes
`current_wpm - wpm_step` in unsigned 64-bit arithmetic before taking the
maximum with `MIN_WPM` (the sub-loop's decrease arm is exactly this update);
the subtraction agrees with the mathematical difference — no underflow —
exactly when `wpm_step ≤ current_wpm`, in which case the result lies in
`[MIN_WPM, max current_wpm MIN_WPM]`; and the precondition is not implied by
the rate being in `[150, 1000]`: at rate 150 (in range) with step 151 the
wrapped result exceeds `MAX_WPM`. -/
theorem decrease_wpm_underflow (wpm step : Nat) (hw : wpm < U64_SIZE)
    (hs : step < U64_SIZE) :
    ((u64_sub wpm step = wpm - step) ↔ step ≤ wpm)
    ∧ (step ≤ wpm →
        MIN_WPM ≤ decrease_wpm_op wpm step
        ∧ decrease_wpm_op wpm step ≤ max wpm MIN_WPM)
    ∧ (∀ (cfg : Config) (w t : Nat) (rest : Script),
        cfg.keys.decrease_wpm ≠ cfg.keys.increase_wpm →
        handle_paused_input cfg w t (some (.key cfg.keys.decrease_wpm) :: rest) =
          handle_paused_input cfg (decrease_wpm_op w cfg.wpm_step) t rest)
    ∧ (MIN_WPM ≤ 150 ∧ 150 ≤ MAX_WPM ∧ ¬151 ≤ 150
        ∧ MAX_WPM < decrease_wpm_op 150 151) := by
  refine ⟨?_, ?_, ?_, by decide⟩
  · simp only [u64_sub, u64_size_eq] at *
    omega
  · intro hle
    simp only [decrease_wpm_op, u64_sub, u64_size_eq, MIN_WPM, MAX_WPM] at *
    omega
  · intro cfg w t rest hdi
    rw [handle_paused_input.eq_def]
    simp [hdi]

/-- Witness for claim C10 at rate 300, step 5: the u64 subtraction agrees
with the mathematical difference, the clamped result stays in range, and the
decrease arm of the pause sub-loop performs exactly this update. -/
theorem decrease_wpm_underflow_witness :
    u64_sub 300 5 = 295
    ∧ (MIN_WPM ≤ decrease_wpm_op 300 5 ∧ decrease_wpm_op 300 5 ≤ max 300 MIN_WPM)
    ∧ handle_paused_input ⟨300, 5, ⟨'q', 'p', '+', '-'⟩⟩ 300 0 [some (.key '-')] =
        handle_paused_input ⟨300, 5, ⟨'q', 'p', '+', '-'⟩⟩ (decrease_wpm_op 300 5) 0 []
    ∧ MAX_WPM < decrease_wpm_op 150 151 := by
  have H := decrease_wpm_underflow 300 5 (by decide) (by decide)
  refine ⟨H.1.mpr (by decide), H.2.1 (by decide), ?_, ?_⟩
  · exact H.2.2.1 ⟨300, 5, ⟨'q', 'p', '+', '-'⟩⟩ 300 0 [] (by decide)
  · exact H.2.2.2.2.2.2

end SpeedReader
